import Mathlib

/-!
Verification development for the flexi_logger core (log-specification engine,
writer dispatch, reconfiguration protocol).

The Rust sources are embedded shallowly:
* Rust strings are `List Char`; `str::split`, `str::trim`, `str::starts_with`
  are modelled by executable list functions.
* `regex::Regex` is modelled by its pattern text; `Regex::new` is modelled as
  always succeeding (no claim here depends on pattern compilation failing).
* I/O outcomes (sink writes, file reads) are abstracted as `Except` values
  passed in as parameters.
* `Vec::sort_by` is a stable sort; it is modelled by a stable insertion sort,
  which produces the same list as any stable sort for the same comparator.
-/

namespace FlexiLogger

/-- Rust strings, modelled as lists of characters. -/
abbrev Str := List Char

/-- `log::Level` (log crate): Error < Warn < Info < Debug < Trace. -/
inductive Level
  | error
  | warn
  | info
  | debug
  | trace
  deriving DecidableEq, Repr

/-- `log::LevelFilter`: Off < Error < Warn < Info < Debug < Trace. -/
inductive LevelFilter
  | off
  | error
  | warn
  | info
  | debug
  | trace
  deriving DecidableEq, Repr

/-- Numeric discriminant of `log::Level` (Error = 1, ..., Trace = 5). -/
def Level.toNat : Level → Nat
  | .error => 1
  | .warn => 2
  | .info => 3
  | .debug => 4
  | .trace => 5

/-- Numeric discriminant of `log::LevelFilter` (Off = 0, ..., Trace = 5). -/
def LevelFilter.toNat : LevelFilter → Nat
  | .off => 0
  | .error => 1
  | .warn => 2
  | .info => 3
  | .debug => 4
  | .trace => 5

/-- `level <= level_filter` (the log crate compares numeric discriminants). -/
def levelLE (l : Level) (f : LevelFilter) : Bool :=
  decide (l.toNat ≤ f.toNat)

/-- `Level <= Level` comparison used by the duplication checks. -/
def levelLEL (a b : Level) : Bool :=
  decide (a.toNat ≤ b.toNat)

/-- `LevelFilter <= LevelFilter`. -/
def lfLE (a b : LevelFilter) : Bool :=
  decide (a.toNat ≤ b.toNat)

/-- Binary max on `LevelFilter` (the Ord-max of the log crate). -/
def lfMax (a b : LevelFilter) : LevelFilter :=
  if lfLE a b then b else a

/-- `LevelFilter::max()` is `Trace`. -/
def LevelFilter.maxValue : LevelFilter := .trace

/-- src/log_specification.rs: `ModuleFilter`. -/
structure ModuleFilter where
  module_name : Option Str
  level_filter : LevelFilter
  deriving DecidableEq, Repr

/-- src/log_specification.rs: `LogSpecification`.  The compiled `Regex` text
filter is modelled by its pattern text. -/
structure LogSpecification where
  module_filters : List ModuleFilter
  textfilter : Option Str
  deriving DecidableEq, Repr

/-- `LogSpecification::max_level`: the Ord-max of all thresholds, `Off` for an
empty rule list. -/
def LogSpecification.max_level (s : LogSpecification) : LevelFilter :=
  (s.module_filters.map (·.level_filter)).foldl lfMax .off

/-- The search loop of `LogSpecification::enabled`: skip named rules whose name
is not a literal prefix of the target; the first remaining rule decides. -/
def enabledGo (level : Level) (target : Str) : List ModuleFilter → Bool
  | [] => false
  | mf :: rest =>
    match mf.module_name with
    | some n =>
      if n.isPrefixOf target then levelLE level mf.level_filter
      else enabledGo level target rest
    | none => levelLE level mf.level_filter

/-- `LogSpecification::enabled`. -/
def LogSpecification.enabled (s : LogSpecification) (level : Level) (target : Str) : Bool :=
  enabledGo level target s.module_filters

/-- `LogSpecification::off()` — the `Default` value: no rules, no text filter. -/
def LogSpecification.off : LogSpecification :=
  { module_filters := [], textfilter := none }

/-- `LogSpecification::reconfigure`: both fields are taken from the new
specification. -/
def LogSpecification.reconfigure (_self other : LogSpecification) : LogSpecification :=
  { module_filters := other.module_filters, textfilter := other.textfilter }

/-- Sort key of `LevelSort::level_sort`: the module-name length, `0` for the
nameless rule. -/
def nameLen (mf : ModuleFilter) : Nat :=
  match mf.module_name with
  | some n => n.length
  | none => 0

/-- Stable insertion of one element for the descending-name-length sort. -/
def sortIns (a : ModuleFilter) : List ModuleFilter → List ModuleFilter
  | [] => [a]
  | b :: l => if nameLen b ≤ nameLen a then a :: b :: l else b :: sortIns a l

/-- `LevelSort::level_sort`: stable sort by descending module-name length.
Rust's `sort_by` is stable; stable insertion sort yields the identical list. -/
def levelSort : List ModuleFilter → List ModuleFilter
  | [] => []
  | a :: l => sortIns a (levelSort l)

/-- `str::split(c)`: always yields at least one (possibly empty) piece. -/
def splitChar (c : Char) : Str → List Str
  | [] => [[]]
  | x :: xs =>
    if x = c then [] :: splitChar c xs
    else
      match splitChar c xs with
      | h :: t => (x :: h) :: t
      | [] => [[x]]

/-- Whitespace as removed by `str::trim` (ASCII fragment). -/
def isWs (c : Char) : Bool :=
  c == ' ' || c == '\t' || c == '\n' || c == '\r'

/-- `str::trim`. -/
def trim (s : Str) : Str :=
  ((s.dropWhile isWs).reverse.dropWhile isWs).reverse

/-- `contains_dash_or_whitespace` (checks `'-'`, `' '` and `'\t'` only). -/
def containsDashOrWs (s : Str) : Bool :=
  s.contains '-' || s.contains ' ' || s.contains '\t'

/-- ASCII lowercasing, `str::to_lowercase` on the inputs that matter here. -/
def toLowerStr (s : Str) : Str := s.map Char.toLower

/-- `parse_level_filter`: case-insensitive match against the six names. -/
def parseLevelFilter (s : Str) : Option LevelFilter :=
  let t := toLowerStr s
  if t = "off".toList then some .off
  else if t = "error".toList then some .error
  else if t = "warn".toList then some .warn
  else if t = "info".toList then some .info
  else if t = "debug".toList then some .debug
  else if t = "trace".toList then some .trace
  else none

/-- Diagnostics pushed by `push_err` / returned errors, modelled as tags with
the offending token. -/
inductive Diag
  | tooManySlashes
  | dashOrWs (tok : Str)
  | badLevel (tok : Str)
  | invalidPart (tok : Str)
  | ioError
  deriving DecidableEq, Repr

/-- Processing of one comma-separated token inside `LogSpecification::parse`:
trim, skip if empty, split on `'='` and inspect the first three pieces. -/
def processToken (raw : Str) : List ModuleFilter × List Diag :=
  let s := trim raw
  if s = [] then ([], [])
  else
    match splitChar '=' s with
    | [p0'] =>
      let p0 := trim p0'
      if containsDashOrWs p0 then ([], [.dashOrWs p0])
      else
        match parseLevelFilter p0 with
        | some lf => ([⟨none, lf⟩], [])
        | none => ([⟨some p0, LevelFilter.maxValue⟩], [])
    | [p0', p1'] =>
      let p0 := trim p0'
      let p1 := trim p1'
      if containsDashOrWs p0 then ([], [.dashOrWs p0])
      else if p1 = [] then ([⟨some p0, LevelFilter.maxValue⟩], [])
      else
        match parseLevelFilter p1 with
        | some lf => ([⟨some p0, lf⟩], [])
        | none => ([], [.badLevel p1])
    | _ => ([], [.invalidPart s])

/-- The rule/diagnostic accumulation loop of `LogSpecification::parse`. -/
def processTokens : List Str → List ModuleFilter × List Diag
  | [] => ([], [])
  | t :: ts =>
    let r := processToken t
    let rest := processTokens ts
    (r.1 ++ rest.1, r.2 ++ rest.2)

/-- `LogSpecification::parse`.  A spec with two or more `'/'` is rejected
wholesale; otherwise the part before the first `'/'` is split on `','` into
rules, the part after it (if any) becomes the text filter. -/
def parse (spec : Str) : Except (List Diag × LogSpecification) LogSpecification :=
  let ps := splitChar '/' spec
  if 2 < ps.length then .error ([.tooManySlashes], .off)
  else
    let dirsErrs :=
      match ps[0]? with
      | some m => processTokens (splitChar ',' m)
      | none => ([], [])
    let logspec : LogSpecification :=
      { module_filters := levelSort dirsErrs.1, textfilter := ps[1]? }
    if dirsErrs.2 = [] then .ok logspec else .error (dirsErrs.2, logspec)

/-- The specification either returned or carried inside the parse error. -/
def specOf (r : Except (List Diag × LogSpecification) LogSpecification) : LogSpecification :=
  match r with
  | .ok s => s
  | .error (_, s) => s

/-- The diagnostics of a parse outcome. -/
def diagsOf (r : Except (List Diag × LogSpecification) LogSpecification) : List Diag :=
  match r with
  | .ok _ => []
  | .error (d, _) => d

/-- `LevelFilter::to_string().to_lowercase()`. -/
def levelName : LevelFilter → Str
  | .off => "off".toList
  | .error => "error".toList
  | .warn => "warn".toList
  | .info => "info".toList
  | .debug => "debug".toList
  | .trace => "trace".toList

/-- The `LogSpecFileFormat` of `from_toml`.  `modules` stands for the
`BTreeMap<String, String>`, given as its key-sorted entry list. -/
structure LogSpecFileFormat where
  global_level : Option Str
  global_pattern : Option Str
  modules : List (Str × Str)
  deriving DecidableEq, Repr

/-- The module loop of `from_toml`: each value must parse as a level filter,
the first failure aborts the whole read (`?` in the source). -/
def parseModules : List (Str × Str) → Except Diag (List ModuleFilter)
  | [] => .ok []
  | (k, v) :: rest =>
    match parseLevelFilter v with
    | some lf =>
      match parseModules rest with
      | .ok fs => .ok (⟨some k, lf⟩ :: fs)
      | .error e => .error e
    | none => .error (.badLevel v)

/-- `LogSpecification::from_toml`: optional global level first, then the
modules, then the optional pattern (pattern compilation modelled as total). -/
def from_toml (ff : LogSpecFileFormat) : Except Diag LogSpecification :=
  match (match ff.global_level with
         | some s =>
           match parseLevelFilter s with
           | some lf => Except.ok [(⟨none, lf⟩ : ModuleFilter)]
           | none => Except.error (Diag.badLevel s)
         | none => Except.ok []) with
  | .error e => .error e
  | .ok base =>
    match parseModules ff.modules with
    | .error e => .error e
    | .ok fs =>
      .ok { module_filters := levelSort (base ++ fs), textfilter := ff.global_pattern }

/-- The `[modules]` line `to_toml` writes for one rule: named rules yield one
`'name' = 'level'` entry, the nameless rule yields none. -/
def toPair (mf : ModuleFilter) : Option (Str × Str) :=
  match mf.module_name with
  | some n => some (n, levelName mf.level_filter)
  | none => none

/-- The file content written by `LogSpecification::to_toml`, as the abstract
file format it will be read back as: `global_level` is written only when the
last rule is the nameless one; the `global_pattern` line is always written
commented out, so no pattern is ever persisted; one `[modules]` entry per
named rule, in rule order. -/
def to_toml (s : LogSpecification) : LogSpecFileFormat :=
  { global_level :=
      match s.module_filters.getLast? with
      | some mf =>
        match mf.module_name with
        | none => some (levelName mf.level_filter)
        | some _ => none
      | none => none
    global_pattern := none
    modules := s.module_filters.filterMap toPair }

/-- Lexicographic order on `Str` (byte order of the module names). -/
def strLt : Str → Str → Bool
  | [], [] => false
  | [], _ :: _ => true
  | _ :: _, [] => false
  | a :: as, b :: bs => if a = b then strLt as bs else decide (a < b)

/-- One `BTreeMap` insertion (keeps keys sorted; an equal key overwrites). -/
def btreeInsert (k v : Str) : List (Str × Str) → List (Str × Str)
  | [] => [(k, v)]
  | (k', v') :: rest =>
    if k = k' then (k, v) :: rest
    else if strLt k k' then (k, v) :: (k', v') :: rest
    else (k', v') :: btreeInsert k v rest

/-- Model of the external toml crate's deserialization of the written
`[modules]` table into a `BTreeMap`: the entries end up sorted by key. -/
def btreeOfList (l : List (Str × Str)) : List (Str × Str) :=
  l.foldl (fun m kv => btreeInsert kv.1 kv.2 m) []

/-- `to_toml` followed by re-reading via `from_toml` (with the toml crate's
table-to-BTreeMap step in between). -/
def tomlRound (s : LogSpecification) : Except Diag LogSpecification :=
  let ff := to_toml s
  from_toml { ff with modules := btreeOfList ff.modules }

/-- One `HashMap::insert` on the builder map, modelled on an entry list with
distinct keys: an existing key is overwritten in place. -/
def mapInsert (k : Option Str) (v : LevelFilter) :
    List (Option Str × LevelFilter) → List (Option Str × LevelFilter)
  | [] => [(k, v)]
  | (k', v') :: rest =>
    if k' = k then (k, v) :: rest else (k', v') :: mapInsert k v rest

/-- `LogSpecBuilder`.  The `HashMap<Option<String>, LevelFilter>` is modelled
as its entry list; Rust leaves the iteration order unspecified, the model
keeps insertion order (any order gives the same key/value content). -/
structure LogSpecBuilder where
  module_filters : List (Option Str × LevelFilter)
  deriving DecidableEq, Repr

/-- `LogSpecBuilder::new()`: all logging turned off. -/
def LogSpecBuilder.new : LogSpecBuilder := ⟨[(none, .off)]⟩

/-- `LogSpecBuilder::default(lf)`: adds or updates the nameless entry. -/
def LogSpecBuilder.setDefault (b : LogSpecBuilder) (lf : LevelFilter) : LogSpecBuilder :=
  ⟨mapInsert none lf b.module_filters⟩

/-- `LogSpecBuilder::module(name, lf)`. -/
def LogSpecBuilder.moduleRule (b : LogSpecBuilder) (n : Str) (lf : LevelFilter) : LogSpecBuilder :=
  ⟨mapInsert (some n) lf b.module_filters⟩

/-- `into_vec_module_filter`: collect the map entries and `level_sort` them. -/
def intoVecModuleFilter (m : List (Option Str × LevelFilter)) : List ModuleFilter :=
  levelSort (m.map fun kv => ⟨kv.1, kv.2⟩)

/-- `LogSpecBuilder::build()`: no text filter. -/
def LogSpecBuilder.build (b : LogSpecBuilder) : LogSpecification :=
  { module_filters := intoVecModuleFilter b.module_filters, textfilter := none }

/-- `Duplicate` (src/logger.rs). -/
inductive Duplicate
  | none
  | error
  | warn
  | info
  | debug
  | trace
  | all
  deriving DecidableEq, Repr

/-- Abstract I/O errors. -/
structure IoError where
  code : Nat
  deriving DecidableEq, Repr

abbrev IoResult := Except IoError Unit

/-- The duplication decision computed in `MultiWriter::write`. -/
def multiDupl (duplicate : Duplicate) (lvl : Level) : Bool :=
  match duplicate with
  | .error => lvl == .error
  | .warn => levelLEL lvl .warn
  | .info => levelLEL lvl .info
  | .debug => levelLEL lvl .debug
  | .trace => true
  | .all => true
  | .none => false

/-- The duplication decision computed in `BlackHoleWriter::write`. -/
def blackHoleDupl (duplicate : Duplicate) (lvl : Level) : Bool :=
  match duplicate with
  | .error => lvl == .error
  | .warn => levelLEL lvl .warn
  | .info => levelLEL lvl .info
  | .debug => levelLEL lvl .debug
  | .trace => true
  | .all => true
  | .none => false

/-- Diagnostics printed (not returned) by `write_buffered`. -/
inductive WDiag
  | fmtFailed
  | writeFailed
  deriving DecidableEq, Repr

/-- `write_buffered`: a failing format call and a failing stderr write are both
caught with `unwrap_or_else(write_err)`; the function returns no error. -/
def writeBuffered (fmtRes wRes : IoResult) : List WDiag :=
  (match fmtRes with | .error _ => [.fmtFailed] | .ok _ => []) ++
  (match wRes with | .error _ => [.writeFailed] | .ok _ => [])

/-- The sink loop of `MultiWriter::write`: `writer.write(..)?` for each
registered sink, so the first failure is returned. -/
def runSinks : List IoResult → IoResult
  | [] => .ok ()
  | r :: rest =>
    match r with
    | .error e => .error e
    | .ok _ => runSinks rest

/-- `MultiWriter::write`, with each registered sink's outcome and the stderr
duplication outcomes abstracted as given results.  Returns the propagated
result together with the diagnostics printed by the duplication path. -/
def multiWrite (dup : Duplicate) (lvl : Level) (fmtRes wRes : IoResult)
    (sinks : List IoResult) : IoResult × List WDiag :=
  let diags := if multiDupl dup lvl then writeBuffered fmtRes wRes else []
  (runSinks sinks, diags)

/-- The specification store: the shared `RwLock<LogSpecification>` together
with the process-global maximum-severity marker (`log::set_max_level`). -/
structure SpecStore where
  spec : LogSpecification
  maxMarker : LevelFilter
  deriving DecidableEq, Repr

/-- Modelled from the spec: `replace` (reached through
`ReconfigurationHandle::set_new_spec`, whose file reconfiguration_handle.rs is
not among the sources) takes the exclusive lock, swaps the whole specification
and updates the max-severity marker in the same exclusive section.  The swap
itself is `LogSpecification::reconfigure`, which also calls
`log::set_max_level(self.max_level())`. -/
def SpecStore.replace (st : SpecStore) (other : LogSpecification) : SpecStore :=
  let s := st.spec.reconfigure other
  ⟨s, s.max_level⟩

/-- The store as set up by `Logger::start`: `log::set_max_level(max)` with the
initial specification's max level. -/
def SpecStore.init (s : LogSpecification) : SpecStore :=
  ⟨s, s.max_level⟩

/-- A sequence of reconfigurations applied to the store. -/
def runReplaces (st : SpecStore) (news : List LogSpecification) : SpecStore :=
  news.foldl SpecStore.replace st

/-- `LogSpecification::file`: the file read may fail; its content is then
parsed by `from_toml`. -/
def specFile (content : Except Diag LogSpecFileFormat) : Except Diag LogSpecification :=
  match content with
  | .ok ff => from_toml ff
  | .error e => .error e

/-- Modelled from the spec: `ReconfigurationHandle::set_new_spec`
(reconfiguration_handle.rs is not among the sources) replaces the stored
specification wholesale. -/
def setNewSpec (st : SpecStore) (new : LogSpecification) : SpecStore :=
  st.replace new

/-- One iteration of the specfile watch loop in `Logger::start_with_specfile`:
on a successful read the new specification is installed, on a failed read only
a diagnostic is printed and the store is left untouched. -/
def reloadStep (st : SpecStore) (content : Except Diag LogSpecFileFormat) : SpecStore :=
  match specFile content with
  | .ok spec => setNewSpec st spec
  | .error _ => st

/-- A named rule matching the target by literal-prefix comparison. -/
def isNamedMatch (target : Str) (mf : ModuleFilter) : Bool :=
  match mf.module_name with
  | some n => n.isPrefixOf target
  | none => false

/-- The nameless (default) rule. -/
def mfIsNone (mf : ModuleFilter) : Bool := mf.module_name.isNone

/-- Spec-side: among the named rules whose name is a literal prefix of the
target, the one with the longest name (the first such on a tie). -/
def bestMatch (target : Str) : List ModuleFilter → Option ModuleFilter
  | [] => none
  | mf :: rest =>
    match bestMatch target rest with
    | none => if isNamedMatch target mf then some mf else none
    | some cur =>
      if isNamedMatch target mf && decide (nameLen cur ≤ nameLen mf) then some mf
      else some cur

/-- Spec-side reading of `enabled`, following the specification's words: the
longest literal-prefix rule decides, else the nameless default, else false. -/
def specEnabled (s : LogSpecification) (level : Level) (target : Str) : Bool :=
  match bestMatch target s.module_filters with
  | some mf => levelLE level mf.level_filter
  | none =>
    match s.module_filters.find? mfIsNone with
    | some mf => levelLE level mf.level_filter
    | none => false

/-- Well-formed rule set: sorted by descending name length (the invariant all
construction paths establish via `level_sort`), no duplicate rule keys, and no
named rule with an empty name. -/
def wfFilters (fs : List ModuleFilter) : Prop :=
  fs.Pairwise (fun a b => nameLen b ≤ nameLen a) ∧
  (fs.map (·.module_name)).Nodup ∧
  ∀ mf ∈ fs, mf.module_name ≠ some []

/-- Well-formed specification. -/
def LogSpecification.wellFormed (s : LogSpecification) : Prop :=
  wfFilters s.module_filters

/-- Spec-side duplication policy, enumerated as the specification words it:
`none` never, `error` exactly Error, `warn`/`info`/`debug` that severity and
everything more severe, `trace`/`all` everything. -/
def specDupl : Duplicate → Level → Bool
  | .none, _ => false
  | .error, l => l == .error
  | .warn, l => l == .error || l == .warn
  | .info, l => l == .error || l == .warn || l == .info
  | .debug, l => l == .error || l == .warn || l == .info || l == .debug
  | .trace, _ => true
  | .all, _ => true

/-! ### Lemmas about the stable descending-length sort -/

theorem sortIns_perm (a : ModuleFilter) (l : List ModuleFilter) :
    List.Perm (sortIns a l) (a :: l) := by
  induction l with
  | nil => exact List.Perm.refl _
  | cons b l ih =>
    unfold sortIns
    by_cases h : nameLen b ≤ nameLen a
    · rw [if_pos h]
    · rw [if_neg h]
      exact (ih.cons b).trans (List.Perm.swap a b l)

theorem levelSort_perm (l : List ModuleFilter) : List.Perm (levelSort l) l := by
  induction l with
  | nil => exact List.Perm.refl _
  | cons a l ih =>
    exact (sortIns_perm a (levelSort l)).trans (ih.cons a)

theorem sortIns_pairwise {a : ModuleFilter} {l : List ModuleFilter}
    (h : l.Pairwise (fun x y => nameLen y ≤ nameLen x)) :
    (sortIns a l).Pairwise (fun x y => nameLen y ≤ nameLen x) := by
  induction l with
  | nil => simp [sortIns]
  | cons b l ih =>
    rcases List.pairwise_cons.1 h with ⟨hb, hl⟩
    unfold sortIns
    by_cases hc : nameLen b ≤ nameLen a
    · rw [if_pos hc]
      refine List.pairwise_cons.2 ⟨?_, h⟩
      intro x hx
      rcases List.mem_cons.1 hx with rfl | hx'
      · exact hc
      · exact le_trans (hb x hx') hc
    · rw [if_neg hc]
      refine List.pairwise_cons.2 ⟨?_, ih hl⟩
      intro x hx
      rcases List.mem_cons.1 ((sortIns_perm a l).mem_iff.1 hx) with rfl | hx'
      · exact le_of_lt (Nat.lt_of_not_le hc)
      · exact hb x hx'

theorem levelSort_sorted (l : List ModuleFilter) :
    (levelSort l).Pairwise (fun x y => nameLen y ≤ nameLen x) := by
  induction l with
  | nil => simp [levelSort]
  | cons a l ih => exact sortIns_pairwise ih

theorem nameLen_eq_zero_of_mfIsNone {a : ModuleFilter} (h : mfIsNone a = true) :
    nameLen a = 0 := by
  cases a with
  | mk name lf =>
    cases name with
    | some n => simp [mfIsNone] at h
    | none => rfl

/-- Stability of the sort on the nameless rules: sorting never reorders them
relative to each other (they all share the minimal sort key). -/
theorem filter_mfIsNone_sortIns (a : ModuleFilter) (l : List ModuleFilter) :
    (sortIns a l).filter mfIsNone =
      if mfIsNone a then a :: l.filter mfIsNone else l.filter mfIsNone := by
  induction l with
  | nil =>
    by_cases ha : mfIsNone a <;> simp [sortIns, List.filter_cons, ha]
  | cons b l ih =>
    unfold sortIns
    by_cases hc : nameLen b ≤ nameLen a
    · by_cases ha : mfIsNone a <;>
        by_cases hb : mfIsNone b <;>
          simp [hc, List.filter_cons, ha, hb]
    · simp only [if_neg hc, List.filter_cons]
      by_cases ha : mfIsNone a
      · have hb : mfIsNone b = false := by
          by_contra hb'
          have hb'' : mfIsNone b = true := by
            cases hbv : mfIsNone b
            · exact absurd hbv hb'
            · rfl
          have : nameLen b = 0 := nameLen_eq_zero_of_mfIsNone hb''
          exact hc (by omega)
        simp [ha, hb, ih]
      · by_cases hb : mfIsNone b <;> simp [ha, hb, ih]

theorem filter_mfIsNone_levelSort (l : List ModuleFilter) :
    (levelSort l).filter mfIsNone = l.filter mfIsNone := by
  induction l with
  | nil => rfl
  | cons a l ih =>
    show (sortIns a (levelSort l)).filter mfIsNone = _
    rw [filter_mfIsNone_sortIns, ih]
    by_cases ha : mfIsNone a <;> simp [List.filter_cons, ha]

/-! ### find? / filter -/

theorem find?_eq_head?_filter (p : ModuleFilter → Bool) (l : List ModuleFilter) :
    l.find? p = (l.filter p).head? := by
  induction l with
  | nil => rfl
  | cons a l ih =>
    rw [List.find?_cons, List.filter_cons]
    cases ha : p a
    · rw [if_neg (by simp [ha])]
      exact ih
    · rw [if_pos rfl]
      rfl

theorem find?_mfIsNone_levelSort (l : List ModuleFilter) :
    (levelSort l).find? mfIsNone = l.find? mfIsNone := by
  rw [find?_eq_head?_filter, find?_eq_head?_filter, filter_mfIsNone_levelSort]

/-! ### The enabled loop -/

/-- If no named rule matches, the first nameless rule decides. -/
theorem enabledGo_of_no_named_match {level : Level} {target : Str}
    {fs : List ModuleFilter} (h : ∀ mf ∈ fs, isNamedMatch target mf = false) :
    enabledGo level target fs =
      match fs.find? mfIsNone with
      | some mf => levelLE level mf.level_filter
      | none => false := by
  induction fs with
  | nil => rfl
  | cons mf rest ih =>
    have hmf := h mf (List.mem_cons_self mf rest)
    cases hname : mf.module_name with
    | some n =>
      have hpre : n.isPrefixOf target = false := by
        simpa [isNamedMatch, hname] using hmf
      have hnone : mfIsNone mf = false := by simp [mfIsNone, hname]
      simp only [enabledGo, hname, hpre, List.find?_cons, hnone]
      exact ih fun x hx => h x (List.mem_cons_of_mem mf hx)
    | none =>
      have hnone : mfIsNone mf = true := by simp [mfIsNone, hname]
      simp [enabledGo, hname, List.find?_cons, hnone]

/-! ### bestMatch -/

theorem bestMatch_mem {target : Str} {fs : List ModuleFilter} {mf : ModuleFilter}
    (h : bestMatch target fs = some mf) : mf ∈ fs ∧ isNamedMatch target mf = true := by
  induction fs with
  | nil => simp [bestMatch] at h
  | cons a rest ih =>
    cases hb : bestMatch target rest with
    | none =>
      simp only [bestMatch, hb] at h
      by_cases ha : isNamedMatch target a
      · rw [if_pos ha] at h
        cases h
        exact ⟨List.mem_cons_self _ _, ha⟩
      · rw [if_neg ha] at h
        cases h
    | some cur =>
      simp only [bestMatch, hb] at h
      by_cases hc : isNamedMatch target a && decide (nameLen cur ≤ nameLen a)
      · rw [if_pos hc] at h
        cases h
        refine ⟨List.mem_cons_self _ _, ?_⟩
        simp only [Bool.and_eq_true] at hc
        exact hc.1
      · rw [if_neg hc] at h
        cases h
        rcases ih hb with ⟨hmem, hmatch⟩
        exact ⟨List.mem_cons_of_mem a hmem, hmatch⟩

theorem bestMatch_none_of_no_match {target : Str} {fs : List ModuleFilter}
    (h : ∀ mf ∈ fs, isNamedMatch target mf = false) : bestMatch target fs = none := by
  induction fs with
  | nil => rfl
  | cons a rest ih =>
    have ha := h a (List.mem_cons_self a rest)
    have hrest : bestMatch target rest = none :=
      ih fun x hx => h x (List.mem_cons_of_mem a hx)
    simp only [bestMatch, hrest, ha]
    rfl

theorem bestMatch_cons_of_match {target : Str} {a : ModuleFilter} {rest : List ModuleFilter}
    (ha : isNamedMatch target a = true) (h : ∀ x ∈ rest, nameLen x ≤ nameLen a) :
    bestMatch target (a :: rest) = some a := by
  cases hb : bestMatch target rest with
  | none => simp only [bestMatch, hb, ha, if_pos]
  | some cur =>
    rcases bestMatch_mem hb with ⟨hmem, _⟩
    simp only [bestMatch, hb]
    rw [if_pos (by simp [ha, h cur hmem])]

theorem bestMatch_cons_of_no_match {target : Str} {a : ModuleFilter}
    {rest : List ModuleFilter} (ha : isNamedMatch target a = false) :
    bestMatch target (a :: rest) = bestMatch target rest := by
  cases hb : bestMatch target rest with
  | none => simp [bestMatch, hb, ha]
  | some cur => simp [bestMatch, hb, ha]

/-- Refinement lemma for `enabled`: on a rule list sorted by descending name
length and containing no empty-named rule, the first structural match of the
search loop is the longest literal-prefix match (else the nameless default,
else false). -/
theorem enabledGo_eq_spec {level : Level} {target : Str} {fs : List ModuleFilter}
    (hsort : fs.Pairwise (fun x y => nameLen y ≤ nameLen x))
    (hne : ∀ mf ∈ fs, mf.module_name ≠ some []) :
    enabledGo level target fs =
      (match bestMatch target fs with
       | some mf => levelLE level mf.level_filter
       | none =>
         match fs.find? mfIsNone with
         | some mf => levelLE level mf.level_filter
         | none => false) := by
  induction fs with
  | nil => rfl
  | cons a rest ih =>
    rcases List.pairwise_cons.1 hsort with ⟨hlen, hrest⟩
    cases hname : a.module_name with
    | some n =>
      by_cases hpre : n.isPrefixOf target
      · have hmatch : isNamedMatch target a = true := by simp [isNamedMatch, hname, hpre]
        rw [bestMatch_cons_of_match hmatch hlen]
        simp [enabledGo, hname, hpre]
      · have hmatch : isNamedMatch target a = false := by
          simp [isNamedMatch, hname]
          cases hp : n.isPrefixOf target
          · rfl
          · exact absurd hp hpre
        have hnone : mfIsNone a = false := by simp [mfIsNone, hname]
        rw [bestMatch_cons_of_no_match hmatch]
        have hpre' : n.isPrefixOf target = false := by
          cases hp : n.isPrefixOf target
          · rfl
          · exact absurd hp hpre
        simp only [enabledGo, hname, hpre', Bool.false_eq_true, if_false,
          List.find?_cons, hnone]
        exact ih hrest fun x hx => hne x (List.mem_cons_of_mem a hx)
    | none =>
      have hnomatch : ∀ x ∈ rest, isNamedMatch target x = false := by
        intro x hx
        cases hxname : x.module_name with
        | none => simp [isNamedMatch, hxname]
        | some m =>
          have hlenx : nameLen x ≤ nameLen a := hlen x hx
          have ha0 : nameLen a = 0 := by simp [nameLen, hname]
          have hm0 : m.length = 0 := by
            have : nameLen x = m.length := by simp [nameLen, hxname]
            omega
          have hm : m = [] := List.eq_nil_of_length_eq_zero hm0
          exact absurd (by rw [hxname, hm]) (hne x (List.mem_cons_of_mem a hx))
      have hbm : bestMatch target (a :: rest) = none := by
        apply bestMatch_none_of_no_match
        intro x hx
        rcases List.mem_cons.1 hx with rfl | hx'
        · simp [isNamedMatch, hname]
        · exact hnomatch x hx'
      have hnonea : mfIsNone a = true := by simp [mfIsNone, hname]
      rw [hbm]
      simp [enabledGo, hname, List.find?_cons, hnonea]

/-- C1: for every specification built from a well-formed rule set, every level
and every module path, `enabled` returns true exactly when the level is at or
below the threshold of the rule whose module name is the longest literal
string prefix of the module path (prefix matching is segment-unaware); if no
named rule's name is a prefix, the nameless default rule decides; with no
default rule either, the result is false — i.e. `enabled` coincides with the
spec-side `specEnabled`. -/
theorem c1_enabled_longest_match (s : LogSpecification) (level : Level) (target : Str)
    (h : s.wellFormed) :
    s.enabled level target = specEnabled s level target := by
  rcases h with ⟨hsort, _, hne⟩
  exact enabledGo_eq_spec hsort hne

/-- Witness for C1 at a concrete well-formed specification; the module path
`"foobaz"` also exhibits the segment-unaware prefix matching of a rule named
`"foo"`. -/
theorem c1_enabled_longest_match_witness :
    (LogSpecification.mk [⟨some ['f', 'o', 'o'], .info⟩, ⟨none, .warn⟩] none).wellFormed ∧
    (LogSpecification.mk [⟨some ['f', 'o', 'o'], .info⟩, ⟨none, .warn⟩] none).enabled
        .info ['f', 'o', 'o', 'b', 'a', 'z'] =
      specEnabled (LogSpecification.mk [⟨some ['f', 'o', 'o'], .info⟩, ⟨none, .warn⟩] none)
        .info ['f', 'o', 'o', 'b', 'a', 'z'] := by
  have hwf : (LogSpecification.mk [⟨some ['f', 'o', 'o'], .info⟩, ⟨none, .warn⟩] none).wellFormed := by
    refine ⟨?_, ?_, ?_⟩
    · simp [nameLen]
    · simp
    · intro mf hmf
      rcases List.mem_cons.1 hmf with rfl | hmf'
      · simp
      · rcases List.mem_cons.1 hmf' with rfl | h'
        · simp
        · simp at h'
  exact ⟨hwf, c1_enabled_longest_match _ _ _ hwf⟩

/-- C4: the duplicate-to-stderr decision of both the multi writer and the
black-hole (discard) writer follows the documented threshold semantics:
none duplicates nothing, error exactly severity Error, warn/info/debug that
severity and everything more severe, trace/all everything. -/
theorem c4_duplication_semantics :
    ∀ (d : Duplicate) (l : Level),
      multiDupl d l = specDupl d l ∧ blackHoleDupl d l = specDupl d l := by
  intro d l
  cases d <;> cases l <;> exact ⟨by decide, by decide⟩

/-- C10: the all-off specification (`LogSpecification::off()`, the `Default`
value with an empty rule list) enables nothing for any level and module path,
and its max level is Off. -/
theorem c10_off_spec :
    (∀ (level : Level) (target : Str), LogSpecification.off.enabled level target = false) ∧
    LogSpecification.off.max_level = .off := by
  exact ⟨fun _ _ => rfl, rfl⟩

/-! ### splitChar -/

theorem splitChar_ne_nil (c : Char) (s : Str) : splitChar c s ≠ [] := by
  induction s with
  | nil => simp [splitChar]
  | cons x xs ih =>
    unfold splitChar
    by_cases h : x = c
    · simp [h]
    · rw [if_neg h]
      cases hs : splitChar c xs with
      | nil => simp
      | cons hd tl => simp

theorem splitChar_length (c : Char) (s : Str) :
    (splitChar c s).length = s.count c + 1 := by
  induction s with
  | nil => simp [splitChar]
  | cons x xs ih =>
    unfold splitChar
    by_cases h : x = c
    · subst h
      simp [List.count_cons, ih]
    · rw [if_neg h]
      cases hs : splitChar c xs with
      | nil => exact absurd hs (splitChar_ne_nil c xs)
      | cons hd tl =>
        rw [hs] at ih
        have hxc : (x == c) = false := by
          cases hv : x == c
          · rfl
          · exact absurd (beq_iff_eq.1 hv) h
        simp only [List.length_cons] at ih ⊢
        rw [List.count_cons, hxc]
        simp only [if_false, Bool.false_eq_true, Nat.add_zero]
        omega

/-- C7: an input containing two or more `'/'` characters is rejected
wholesale: `parse` returns the all-disabled specification (no module rules,
no text filter, enabled false everywhere) with exactly one diagnostic. -/
theorem c7_double_slash (spec : Str) (h : 2 ≤ spec.count '/') :
    parse spec = .error ([.tooManySlashes], .off) ∧
    LogSpecification.off.module_filters = [] ∧
    LogSpecification.off.textfilter = none ∧
    ∀ (level : Level) (target : Str), LogSpecification.off.enabled level target = false := by
  refine ⟨?_, rfl, rfl, fun _ _ => rfl⟩
  have hlen : 2 < (splitChar '/' spec).length := by
    rw [splitChar_length]
    omega
  unfold parse
  rw [if_pos hlen]

/-- Witness for C7 at the concrete input `"a/b/c"`. -/
theorem c7_double_slash_witness :
    2 ≤ ("a/b/c".toList).count '/' ∧
    parse ("a/b/c".toList) = .error ([.tooManySlashes], .off) :=
  ⟨by decide, (c7_double_slash _ (by decide)).1⟩

/-! ### The specification store -/

theorem runReplaces_marker (news : List LogSpecification) (st : SpecStore)
    (h : st.maxMarker = st.spec.max_level) :
    (runReplaces st news).maxMarker = (runReplaces st news).spec.max_level := by
  induction news generalizing st with
  | nil => exact h
  | cons n ns ih => exact ih (SpecStore.replace st n) rfl

theorem runReplaces_spec_cases (news : List LogSpecification) (st : SpecStore) :
    (runReplaces st news).spec = st.spec ∨ (runReplaces st news).spec ∈ news := by
  induction news generalizing st with
  | nil => exact Or.inl rfl
  | cons n ns ih =>
    rcases ih (SpecStore.replace st n) with h | h
    · right
      show (runReplaces (SpecStore.replace st n) ns).spec ∈ n :: ns
      rw [h]
      exact List.mem_cons_self _ _
    · right
      exact List.mem_cons_of_mem _ h

/-- C9: after any sequence of replace operations — each one atomic, as the
exclusive lock of the store makes it — every later observation of the store
sees a complete specification (the initial one or one of the installed ones)
together with the max-severity marker computed from that same specification
in the same exclusive section: never a mix of old and new. -/
theorem c9_replace_atomic (s0 : LogSpecification) (news : List LogSpecification) :
    (runReplaces (SpecStore.init s0) news).maxMarker =
      (runReplaces (SpecStore.init s0) news).spec.max_level ∧
    ((runReplaces (SpecStore.init s0) news).spec = s0 ∨
      (runReplaces (SpecStore.init s0) news).spec ∈ news) :=
  ⟨runReplaces_marker news _ rfl, runReplaces_spec_cases news _⟩

/-- C8: a failed read or parse of the specification file leaves the store,
and hence every subsequent enabled decision, exactly as before the failed
update, while a successful read installs the new specification wholesale. -/
theorem c8_failsafe_reload (st : SpecStore) (content : Except Diag LogSpecFileFormat)
    (level : Level) (target : Str) :
    (∀ e, specFile content = .error e →
      reloadStep st content = st ∧
      (reloadStep st content).spec.enabled level target = st.spec.enabled level target) ∧
    (∀ s', specFile content = .ok s' →
      reloadStep st content = setNewSpec st s') := by
  constructor
  · intro e he
    have hst : reloadStep st content = st := by
      unfold reloadStep
      rw [he]
    exact ⟨hst, by rw [hst]⟩
  · intro s' hs
    unfold reloadStep
    rw [hs]

/-- Witness for C8: a file whose module entry has the unparseable level
`"x"` fails in `from_toml` and leaves the store untouched. -/
theorem c8_failsafe_reload_witness :
    reloadStep (SpecStore.init LogSpecification.off)
        (.ok ⟨none, none, [(['m'], ['x'])]⟩) =
      SpecStore.init LogSpecification.off :=
  ((c8_failsafe_reload (SpecStore.init LogSpecification.off)
      (.ok ⟨none, none, [(['m'], ['x'])]⟩) .info []).1 (.badLevel ['x']) (by rfl)).1

/-! ### Multi-writer error propagation -/

def isOkB : IoResult → Bool
  | .ok _ => true
  | .error _ => false

theorem isOkB_runSinks (sinks : List IoResult) :
    isOkB (runSinks sinks) = sinks.all isOkB := by
  induction sinks with
  | nil => rfl
  | cons r rest ih =>
    cases r with
    | error e => rfl
    | ok u =>
      cases u
      show isOkB (runSinks rest) = List.all (.ok () :: rest) isOkB
      rw [ih]
      simp [isOkB]

theorem runSinks_first_error (pre post : List IoResult) (e : IoError)
    (h : ∀ r ∈ pre, r = .ok ()) :
    runSinks (pre ++ .error e :: post) = .error e := by
  induction pre with
  | nil => rfl
  | cons r rest ih =>
    have hr := h r (List.mem_cons_self _ _)
    subst hr
    show runSinks (.ok () :: (rest ++ .error e :: post)) = .error e
    simpa [runSinks] using ih fun x hx => h x (List.mem_cons_of_mem _ hx)

/-- C6: for the multi sink, the result returned by `write` is exactly the
propagated outcome of the registered (primary) sinks — the error of the first
failing sink, ok iff all succeed — and is independent of the duplication
outcomes; a failing duplicate-to-stderr write, when duplication fires, shows
up only in the printed diagnostics. -/
theorem c6_multi_error_propagation (d : Duplicate) (l : Level)
    (fmtRes wRes : IoResult) (sinks : List IoResult) :
    (multiWrite d l fmtRes wRes sinks).1 = runSinks sinks ∧
    isOkB (multiWrite d l fmtRes wRes sinks).1 = sinks.all isOkB ∧
    (multiWrite d l fmtRes wRes sinks).1 = (multiWrite d l (.ok ()) (.ok ()) sinks).1 ∧
    (∀ (pre post : List IoResult) (e : IoError), (∀ r ∈ pre, r = .ok ()) →
      sinks = pre ++ .error e :: post → (multiWrite d l fmtRes wRes sinks).1 = .error e) ∧
    (∀ e, wRes = .error e → multiDupl d l = true →
      WDiag.writeFailed ∈ (multiWrite d l fmtRes wRes sinks).2) := by
  refine ⟨rfl, isOkB_runSinks sinks, rfl, ?_, ?_⟩
  · intro pre post e hok hs
    show runSinks sinks = .error e
    rw [hs]
    exact runSinks_first_error pre post e hok
  · intro e he hd
    show WDiag.writeFailed ∈ (if multiDupl d l then writeBuffered fmtRes wRes else [])
    rw [hd, if_pos rfl, he]
    unfold writeBuffered
    cases fmtRes <;> simp

/-- Witness for C6: one ok primary sink plus one failing one propagates the
failing sink's error even though the stderr duplication also failed, and that
duplication failure appears among the diagnostics. -/
theorem c6_multi_error_propagation_witness :
    (multiWrite .all .info (.ok ()) (.error ⟨7⟩) [.ok (), .error ⟨3⟩]).1 = .error ⟨3⟩ ∧
    WDiag.writeFailed ∈ (multiWrite .all .info (.ok ()) (.error ⟨7⟩) [.ok (), .error ⟨3⟩]).2 := by
  have h := c6_multi_error_propagation .all .info (.ok ()) (.error ⟨7⟩) [.ok (), .error ⟨3⟩]
  exact ⟨h.2.2.2.1 [.ok ()] [] ⟨3⟩ (by intro r hr; simpa using hr) rfl,
    h.2.2.2.2 ⟨7⟩ rfl (by decide)⟩

/-! ### Default-rule selection (C3) -/

theorem splitChar_eq_single {c : Char} {s : Str} (h : c ∉ s) : splitChar c s = [s] := by
  induction s with
  | nil => rfl
  | cons x xs ih =>
    unfold splitChar
    have hxc : ¬ x = c := by
      intro hx
      apply h
      rw [hx]
      exact List.mem_cons_self _ _
    rw [if_neg hxc, ih fun hc => h (List.mem_cons_of_mem _ hc)]

theorem specOf_parse_of_no_slash {s : Str} (h : '/' ∉ s) :
    specOf (parse s) = ⟨levelSort (processTokens (splitChar ',' s)).1, none⟩ := by
  unfold parse
  rw [splitChar_eq_single h]
  simp only [List.length_cons, List.length_nil]
  rw [if_neg (by omega)]
  simp only [List.getElem?_cons_zero, List.getElem?_cons_succ, List.getElem?_nil]
  by_cases he : (processTokens (splitChar ',' s)).2 = []
  · rw [if_pos he]
    rfl
  · rw [if_neg he]
    rfl

theorem filter_mfIsNone_map_of_no_none_key (m : List (Option Str × LevelFilter))
    (h : ∀ kv ∈ m, kv.1 ≠ none) :
    ((m.map fun kv => ModuleFilter.mk kv.1 kv.2).filter mfIsNone) = [] := by
  induction m with
  | nil => rfl
  | cons kv rest ih =>
    have hk := h kv (List.mem_cons_self _ _)
    have hm : mfIsNone ⟨kv.1, kv.2⟩ = false := by
      cases hv : kv.1 with
      | none => exact absurd hv hk
      | some n => simp [mfIsNone, hv]
    rw [List.map_cons, List.filter_cons]
    rw [if_neg (by simp [hm])]
    exact ih fun x hx => h x (List.mem_cons_of_mem _ hx)

theorem filter_mfIsNone_mapInsert_none (d : LevelFilter)
    (m : List (Option Str × LevelFilter)) (h : (m.map Prod.fst).Nodup) :
    (((mapInsert none d m).map fun kv => ModuleFilter.mk kv.1 kv.2).filter mfIsNone) =
      [⟨none, d⟩] := by
  induction m with
  | nil => rfl
  | cons kv rest ih =>
    rw [List.map_cons] at h
    rcases List.nodup_cons.1 h with ⟨hnotmem, hrest⟩
    unfold mapInsert
    by_cases hk : kv.1 = none
    · rw [if_pos hk]
      have hnone : ∀ x ∈ rest, x.1 ≠ none := by
        intro x hx hxn
        apply hnotmem
        rw [hk, ← hxn]
        exact List.mem_map_of_mem Prod.fst hx
      rw [List.map_cons, List.filter_cons]
      rw [if_pos (by simp [mfIsNone])]
      rw [filter_mfIsNone_map_of_no_none_key rest hnone]
    · rw [if_neg hk]
      have hm : mfIsNone ⟨kv.1, kv.2⟩ = false := by
        cases hv : kv.1 with
        | none => exact absurd hv hk
        | some n => simp [mfIsNone, hv]
      rw [List.map_cons, List.filter_cons]
      rw [if_neg (by simp [hm])]
      exact ih hrest

/-- C3 counterexample: `parse "error,trace"` supplies two default rules, the
last-supplied one being trace; yet `enabled(Trace, "m")` is false while
`Trace ≤ trace` holds — so the last-supplied default does NOT decide: the
first-supplied one (error) does, refuting last-write-wins for the parse
construction path. -/
theorem c3_counterexample :
    diagsOf (parse ("error,trace".toList)) = [] ∧
    specOf (parse ("error,trace".toList)) =
      ⟨[⟨none, .error⟩, ⟨none, .trace⟩], none⟩ ∧
    (specOf (parse ("error,trace".toList))).enabled .trace ['m'] = false ∧
    levelLE .trace .trace = true := by
  refine ⟨?_, ?_, ?_, ?_⟩ <;> decide

/-- C3 amended: the builder construction path is last-write-wins — after
`default(d)` the nameless entry is unique with threshold d, and every module
path matched by no named rule is decided by d — while the DSL parse path is
first-write-wins: an unmatched module path is decided by the first default
rule supplied in the input (the first nameless entry of the pre-sort rule
list). -/
theorem c3_default_rule_selection :
    (∀ (b : LogSpecBuilder) (d : LevelFilter) (level : Level) (path : Str),
      (b.module_filters.map Prod.fst).Nodup →
      (∀ mf ∈ (b.setDefault d).build.module_filters, isNamedMatch path mf = false) →
      (b.setDefault d).build.enabled level path = levelLE level d) ∧
    (∀ (s : Str) (level : Level) (path : Str), '/' ∉ s →
      (∀ mf ∈ (processTokens (splitChar ',' s)).1, isNamedMatch path mf = false) →
      (specOf (parse s)).enabled level path =
        (match (processTokens (splitChar ',' s)).1.find? mfIsNone with
         | some mf => levelLE level mf.level_filter
         | none => false)) := by
  constructor
  · intro b d level path hnodup hnomatch
    have hnomatch' : ∀ mf ∈ intoVecModuleFilter (mapInsert none d b.module_filters),
        isNamedMatch path mf = false := hnomatch
    show enabledGo level path (intoVecModuleFilter (mapInsert none d b.module_filters)) = _
    rw [enabledGo_of_no_named_match hnomatch']
    unfold intoVecModuleFilter
    rw [find?_mfIsNone_levelSort, find?_eq_head?_filter,
      filter_mfIsNone_mapInsert_none d _ hnodup]
    rfl
  · intro s level path hs hnomatch
    have hspec := specOf_parse_of_no_slash hs
    have hmem : ∀ mf ∈ (specOf (parse s)).module_filters, isNamedMatch path mf = false := by
      intro mf hmf
      rw [hspec] at hmf
      exact hnomatch mf ((levelSort_perm _).mem_iff.1 hmf)
    show (specOf (parse s)).enabled level path = _
    unfold LogSpecification.enabled
    rw [enabledGo_of_no_named_match hmem, hspec]
    rw [show (LogSpecification.mk (levelSort (processTokens (splitChar ',' s)).1) none).module_filters
        = levelSort (processTokens (splitChar ',' s)).1 from rfl]
    rw [find?_mfIsNone_levelSort]

/-- Witness for C3 amended: the builder with a fresh default `debug` enables
an unmatched path at debug; the parse of `"error,trace"` decides an unmatched
path by its first default (error). -/
theorem c3_default_rule_selection_witness :
    ((LogSpecBuilder.new.setDefault .debug).build.enabled .debug ['m'] =
      levelLE .debug .debug) ∧
    ((specOf (parse ("error,trace".toList))).enabled .trace ['m'] =
      (match (processTokens (splitChar ',' ("error,trace".toList))).1.find? mfIsNone with
       | some mf => levelLE .trace mf.level_filter
       | none => false)) := by
  constructor
  · exact c3_default_rule_selection.1 LogSpecBuilder.new .debug .debug ['m']
      (by decide) (by decide)
  · exact c3_default_rule_selection.2 ("error,trace".toList) .trace ['m']
      (by decide) (by decide)

/-! ### Dropping a single bad rule (C5) -/

/-- Join tokens with a separator (left inverse of `splitChar` on
separator-free tokens). -/
def joinC (c : Char) : List Str → Str
  | [] => []
  | [t] => t
  | t :: ts => t ++ c :: joinC c ts

theorem splitChar_cons_eq {c : Char} (xs : Str) :
    splitChar c (c :: xs) = [] :: splitChar c xs := by
  show (if c = c then [] :: splitChar c xs else
      match splitChar c xs with
      | hd :: tl => (c :: hd) :: tl
      | [] => [[c]]) = _
  rw [if_pos rfl]

theorem splitChar_cons_ne {c x : Char} (xs : Str) (h : ¬ x = c) :
    splitChar c (x :: xs) =
      (match splitChar c xs with
       | hd :: tl => (x :: hd) :: tl
       | [] => [[x]]) := by
  show (if x = c then [] :: splitChar c xs else
      match splitChar c xs with
      | hd :: tl => (x :: hd) :: tl
      | [] => [[x]]) = _
  rw [if_neg h]

theorem splitChar_append {c : Char} (t r : Str) (h : c ∉ t) :
    splitChar c (t ++ r) = (t ++ (splitChar c r).headI) :: (splitChar c r).tail := by
  induction t with
  | nil =>
    cases hs : splitChar c r with
    | nil => exact absurd hs (splitChar_ne_nil c r)
    | cons hd tl => simp [hs]
  | cons x t' ih =>
    have hxc : ¬ x = c := by
      intro hx
      apply h
      rw [hx]
      exact List.mem_cons_self _ _
    rw [List.cons_append, splitChar_cons_ne _ hxc,
      ih fun hc => h (List.mem_cons_of_mem _ hc)]
    rfl

theorem splitChar_joinC {c : Char} {ts : List Str}
    (h : ∀ t ∈ ts, c ∉ t) (hne : ts ≠ []) :
    splitChar c (joinC c ts) = ts := by
  induction ts with
  | nil => exact absurd rfl hne
  | cons t ts' ih =>
    cases ts' with
    | nil => exact splitChar_eq_single (h t (List.mem_cons_self _ _))
    | cons t2 ts'' =>
      show splitChar c (t ++ c :: joinC c (t2 :: ts'')) = _
      rw [splitChar_append _ _ (h t (List.mem_cons_self _ _))]
      rw [splitChar_cons_eq, ih (fun x hx => h x (List.mem_cons_of_mem _ hx)) (by simp)]
      simp

theorem processTokens_cons (t : Str) (ts : List Str) :
    processTokens (t :: ts) =
      ((processToken t).1 ++ (processTokens ts).1,
       (processToken t).2 ++ (processTokens ts).2) := rfl

theorem processTokens_append (ts1 ts2 : List Str) :
    processTokens (ts1 ++ ts2) =
      ((processTokens ts1).1 ++ (processTokens ts2).1,
       (processTokens ts1).2 ++ (processTokens ts2).2) := by
  induction ts1 with
  | nil => rfl
  | cons t ts ih =>
    rw [List.cons_append, processTokens_cons, ih, processTokens_cons]
    simp [List.append_assoc]

theorem processTokens_joinC {ts : List Str} (h : ∀ t ∈ ts, ',' ∉ t) :
    processTokens (splitChar ',' (joinC ',' ts)) = processTokens ts := by
  cases hts : ts with
  | nil => rfl
  | cons t ts' =>
    rw [← hts]
    rw [splitChar_joinC h (by rw [hts]; simp)]

theorem mem_joinC {c : Char} {x : Char} {ts : List Str} (h : x ∈ joinC c ts) :
    x = c ∨ ∃ t ∈ ts, x ∈ t := by
  induction ts with
  | nil => simp [joinC] at h
  | cons t ts' ih =>
    cases ts' with
    | nil =>
      right
      exact ⟨t, List.mem_cons_self _ _, h⟩
    | cons t2 ts'' =>
      rcases List.mem_append.1 h with h1 | h2
      · right
        exact ⟨t, List.mem_cons_self _ _, h1⟩
      · rcases List.mem_cons.1 h2 with rfl | h3
        · exact Or.inl rfl
        · rcases ih h3 with h4 | ⟨u, hu, hxu⟩
          · exact Or.inl h4
          · exact Or.inr ⟨u, List.mem_cons_of_mem _ hu, hxu⟩

theorem parse_mods_filter (mods f : Str) (hm : '/' ∉ mods) (hf : '/' ∉ f) :
    specOf (parse (mods ++ '/' :: f)) =
      ⟨levelSort (processTokens (splitChar ',' mods)).1, some f⟩ ∧
    diagsOf (parse (mods ++ '/' :: f)) = (processTokens (splitChar ',' mods)).2 := by
  have hsplit : splitChar '/' (mods ++ '/' :: f) = [mods, f] := by
    rw [splitChar_append _ _ hm, splitChar_cons_eq, splitChar_eq_single hf]
    simp
  unfold parse
  rw [hsplit]
  simp only [List.length_cons, List.length_nil]
  rw [if_neg (by omega)]
  simp only [List.getElem?_cons_zero, List.getElem?_cons_succ, List.getElem?_nil]
  by_cases he : (processTokens (splitChar ',' mods)).2 = []
  · rw [if_pos he]
    exact ⟨rfl, he.symm⟩
  · rw [if_neg he]
    exact ⟨rfl, rfl⟩

/-- A rule token that `parse` drops with a rule-scoped diagnostic: it has more
than one `'='`, or its module part contains a dash or whitespace. -/
def droppedToken (raw : Str) : Bool :=
  let s := trim raw
  if s = [] then false
  else
    match splitChar '=' s with
    | [p0'] => containsDashOrWs (trim p0')
    | [p0', _] => containsDashOrWs (trim p0')
    | _ => true

theorem processToken_dropped {raw : Str} (h : droppedToken raw = true) :
    (processToken raw).1 = [] ∧ (processToken raw).2.length = 1 := by
  unfold droppedToken at h
  unfold processToken
  by_cases hs : trim raw = []
  · rw [if_pos hs] at h
    cases h
  · rw [if_neg hs] at h
    rw [if_neg hs]
    rcases hsp : splitChar '=' (trim raw) with _ | ⟨p0, _ | ⟨p1, _ | _⟩⟩ <;>
        simp only [hsp] at h ⊢ <;>
      simp [h]

/-- C5: a rule containing more than one `'='`, or whose module token contains
a dash or whitespace, is dropped alone with one rule-scoped diagnostic: the
returned specification is identical to parsing the same input without that
rule — every other rule and the trailing text filter survive — and exactly
one diagnostic is added. -/
theorem c5_bad_rule_dropped (pre post : List Str) (bad f : Str)
    (htok : ∀ t ∈ pre ++ post, ',' ∉ t ∧ '/' ∉ t)
    (hbad : ',' ∉ bad ∧ '/' ∉ bad)
    (hf : '/' ∉ f)
    (hdrop : droppedToken bad = true) :
    specOf (parse (joinC ',' (pre ++ bad :: post) ++ '/' :: f)) =
      specOf (parse (joinC ',' (pre ++ post) ++ '/' :: f)) ∧
    (specOf (parse (joinC ',' (pre ++ bad :: post) ++ '/' :: f))).textfilter = some f ∧
    (diagsOf (parse (joinC ',' (pre ++ bad :: post) ++ '/' :: f))).length =
      (diagsOf (parse (joinC ',' (pre ++ post) ++ '/' :: f))).length + 1 := by
  have hcomma1 : ∀ t ∈ pre ++ bad :: post, ',' ∉ t := by
    intro t ht
    rcases List.mem_append.1 ht with h1 | h2
    · exact (htok t (List.mem_append.2 (Or.inl h1))).1
    · rcases List.mem_cons.1 h2 with rfl | h3
      · exact hbad.1
      · exact (htok t (List.mem_append.2 (Or.inr h3))).1
  have hcomma2 : ∀ t ∈ pre ++ post, ',' ∉ t := fun t ht => (htok t ht).1
  have hslash1 : '/' ∉ joinC ',' (pre ++ bad :: post) := by
    intro hx
    rcases mem_joinC hx with h1 | ⟨t, ht, hxt⟩
    · cases h1
    · rcases List.mem_append.1 ht with h1 | h2
      · exact (htok t (List.mem_append.2 (Or.inl h1))).2 hxt
      · rcases List.mem_cons.1 h2 with rfl | h3
        · exact hbad.2 hxt
        · exact (htok t (List.mem_append.2 (Or.inr h3))).2 hxt
  have hslash2 : '/' ∉ joinC ',' (pre ++ post) := by
    intro hx
    rcases mem_joinC hx with h1 | ⟨t, ht, hxt⟩
    · cases h1
    · exact (htok t ht).2 hxt
  rcases parse_mods_filter (joinC ',' (pre ++ bad :: post)) f hslash1 hf with ⟨hspec1, hdiag1⟩
  rcases parse_mods_filter (joinC ',' (pre ++ post)) f hslash2 hf with ⟨hspec2, hdiag2⟩
  rw [hspec1, hspec2, hdiag1, hdiag2]
  rw [processTokens_joinC hcomma1, processTokens_joinC hcomma2]
  have hb := processToken_dropped hdrop
  have h1 : processTokens (pre ++ bad :: post) =
      ((processTokens pre).1 ++ (processTokens post).1,
       (processTokens pre).2 ++ (processToken bad).2 ++ (processTokens post).2) := by
    rw [processTokens_append pre (bad :: post), processTokens_cons]
    simp [hb.1, List.append_assoc]
  have h2 : processTokens (pre ++ post) =
      ((processTokens pre).1 ++ (processTokens post).1,
       (processTokens pre).2 ++ (processTokens post).2) :=
    processTokens_append pre post
  rw [h1, h2]
  refine ⟨rfl, rfl, ?_⟩
  simp [List.length_append, hb.2]
  omega

/-- Witness for C5 at the spec's own example: the double-`=` rule
`"crate1::mod1=warn=info"` is dropped, `"crate2=debug"` and the filter
`"abc"` survive, one diagnostic is added. -/
theorem c5_bad_rule_dropped_witness :
    specOf (parse (joinC ','
        ([] ++ "crate1::mod1=warn=info".toList :: ["crate2=debug".toList]) ++
        '/' :: "abc".toList)) =
      specOf (parse (joinC ',' ([] ++ ["crate2=debug".toList]) ++ '/' :: "abc".toList)) ∧
    (specOf (parse (joinC ','
        ([] ++ "crate1::mod1=warn=info".toList :: ["crate2=debug".toList]) ++
        '/' :: "abc".toList))).textfilter = some ("abc".toList) ∧
    (diagsOf (parse (joinC ','
        ([] ++ "crate1::mod1=warn=info".toList :: ["crate2=debug".toList]) ++
        '/' :: "abc".toList))).length =
      (diagsOf (parse (joinC ',' ([] ++ ["crate2=debug".toList]) ++
        '/' :: "abc".toList))).length + 1 :=
  c5_bad_rule_dropped [] ["crate2=debug".toList]
    ("crate1::mod1=warn=info".toList) ("abc".toList)
    (by decide) (by decide) (by decide) (by decide)

/-! ### Toml round trip (C2) -/

theorem parseLevelFilter_levelName (lf : LevelFilter) :
    parseLevelFilter (levelName lf) = some lf := by
  cases lf <;> rfl

/-- Decoding of one `[modules]` entry as `from_toml` performs it. -/
def decodePair (kv : Str × Str) : Option ModuleFilter :=
  (parseLevelFilter kv.2).map fun lf => ⟨some kv.1, lf⟩

theorem parseModules_eq_filterMap (l : List (Str × Str))
    (h : ∀ kv ∈ l, (decodePair kv).isSome) :
    parseModules l = .ok (l.filterMap decodePair) := by
  induction l with
  | nil => rfl
  | cons kv rest ih =>
    have hkv := h kv (List.mem_cons_self _ _)
    rcases kv with ⟨k, v⟩
    rcases hlf : parseLevelFilter v with _ | lf
    · rw [decodePair, hlf] at hkv
      cases hkv
    · show parseModules ((k, v) :: rest) = _
      unfold parseModules
      rw [hlf, ih fun x hx => h x (List.mem_cons_of_mem _ hx)]
      rw [List.filterMap_cons]
      rw [show decodePair (k, v) = some ⟨some k, lf⟩ by rw [decodePair, hlf]; rfl]

theorem filterMap_decodePair_toPair (N : List ModuleFilter)
    (h : ∀ mf ∈ N, mf.module_name ≠ none) :
    (N.filterMap toPair).filterMap decodePair = N := by
  induction N with
  | nil => rfl
  | cons a rest ih =>
    cases hname : a.module_name with
    | none => exact absurd hname (h a (List.mem_cons_self _ _))
    | some n =>
      rw [List.filterMap_cons]
      rw [show toPair a = some (n, levelName a.level_filter) by rw [toPair, hname]]
      rw [List.filterMap_cons]
      rw [show decodePair (n, levelName a.level_filter) = some ⟨some n, a.level_filter⟩ by
        rw [decodePair, parseLevelFilter_levelName]; rfl]
      rw [ih fun x hx => h x (List.mem_cons_of_mem _ hx)]
      have : a = ⟨some n, a.level_filter⟩ := by
        cases a
        simp_all
      rw [← this]

theorem decodePair_isSome_of_mem_toPair {N : List ModuleFilter} {kv : Str × Str}
    (h : kv ∈ N.filterMap toPair) : (decodePair kv).isSome := by
  rcases List.mem_filterMap.1 h with ⟨mf, _, htp⟩
  cases hname : mf.module_name with
  | none => rw [toPair, hname] at htp; cases htp
  | some n =>
    rw [toPair, hname] at htp
    cases htp
    rw [decodePair, parseLevelFilter_levelName]
    rfl

theorem keys_filterMap_toPair (N : List ModuleFilter) :
    (N.filterMap toPair).map Prod.fst = N.filterMap (·.module_name) := by
  induction N with
  | nil => rfl
  | cons a rest ih =>
    cases hname : a.module_name with
    | none =>
      rw [List.filterMap_cons, List.filterMap_cons, hname]
      rw [show toPair a = none by rw [toPair, hname]]
      exact ih
    | some n =>
      rw [List.filterMap_cons, List.filterMap_cons, hname]
      rw [show toPair a = some (n, levelName a.level_filter) by rw [toPair, hname]]
      rw [List.map_cons, ih]

theorem nodup_filterMap_module_name {N : List ModuleFilter}
    (h : (N.map (·.module_name)).Nodup) : (N.filterMap (·.module_name)).Nodup := by
  induction N with
  | nil => exact List.nodup_nil
  | cons a rest ih =>
    rw [List.map_cons] at h
    rcases List.nodup_cons.1 h with ⟨hnotmem, h'⟩
    cases hname : a.module_name with
    | none =>
      rw [List.filterMap_cons, hname]
      exact ih h'
    | some n =>
      rw [List.filterMap_cons, hname]
      refine List.nodup_cons.2 ⟨?_, ih h'⟩
      intro hn
      apply hnotmem
      rw [hname]
      rcases List.mem_filterMap.1 hn with ⟨b, hb, hbname⟩
      exact List.mem_map.2 ⟨b, hb, hbname⟩

theorem btreeInsert_perm (k v : Str) (m : List (Str × Str))
    (h : k ∉ m.map Prod.fst) :
    List.Perm (btreeInsert k v m) ((k, v) :: m) := by
  induction m with
  | nil => exact List.Perm.refl _
  | cons kv rest ih =>
    rcases kv with ⟨k', v'⟩
    show List.Perm
      (if k = k' then (k, v) :: rest
       else if strLt k k' then (k, v) :: (k', v') :: rest
       else (k', v') :: btreeInsert k v rest) _
    have hk : ¬ k = k' := by
      intro hkk
      apply h
      rw [List.map_cons, hkk]
      exact List.mem_cons_self _ _
    rw [if_neg hk]
    by_cases hlt : strLt k k'
    · rw [if_pos hlt]
    · rw [if_neg hlt]
      have hnot : k ∉ rest.map Prod.fst := by
        intro hmem
        apply h
        rw [List.map_cons]
        exact List.mem_cons_of_mem _ hmem
      exact ((ih hnot).cons (k', v')).trans (List.Perm.swap (k, v) (k', v') rest)

theorem btreeOfList_foldl_perm (l : List (Str × Str)) : ∀ (m : List (Str × Str)),
    ((m ++ l).map Prod.fst).Nodup →
    List.Perm (l.foldl (fun acc kv => btreeInsert kv.1 kv.2 acc) m) (m ++ l) := by
  induction l with
  | nil =>
    intro m _
    simp
  | cons kv l' ih =>
    intro m h
    have hnodupm : kv.1 ∉ m.map Prod.fst := by
      rw [List.map_append, List.map_cons] at h
      have hdisj := (List.nodup_append.1 h).2.2
      intro hmem
      exact hdisj hmem (List.mem_cons_self _ _)
    have hins := btreeInsert_perm kv.1 kv.2 m hnodupm
    have hperm1 : List.Perm (btreeInsert kv.1 kv.2 m ++ l') (m ++ kv :: l') :=
      (hins.append_right l').trans List.perm_middle.symm
    have hnodup' : ((btreeInsert kv.1 kv.2 m ++ l').map Prod.fst).Nodup :=
      ((hperm1.map Prod.fst).nodup_iff).2 h
    show List.Perm (l'.foldl _ (btreeInsert kv.1 kv.2 m)) _
    exact (ih (btreeInsert kv.1 kv.2 m) hnodup').trans hperm1

theorem btreeOfList_perm (l : List (Str × Str)) (h : (l.map Prod.fst).Nodup) :
    List.Perm (btreeOfList l) l := by
  have hperm := btreeOfList_foldl_perm l [] (by simpa using h)
  simpa [btreeOfList] using hperm

/-- A well-formed rule list is all-named, or all-named followed by exactly one
nameless rule at the end. -/
theorem wf_decomp (fs : List ModuleFilter) :
    fs.Pairwise (fun x y => nameLen y ≤ nameLen x) →
    (fs.map (·.module_name)).Nodup →
    (∀ mf ∈ fs, mf.module_name ≠ some []) →
    (∀ mf ∈ fs, mf.module_name ≠ none) ∨
      ∃ N d, fs = N ++ [⟨none, d⟩] ∧ ∀ mf ∈ N, mf.module_name ≠ none := by
  induction fs with
  | nil =>
    intro _ _ _
    left
    intro mf hmf
    cases hmf
  | cons a rest ih =>
    intro hsort hnodup hne
    rcases List.pairwise_cons.1 hsort with ⟨hlen, hsort'⟩
    rw [List.map_cons] at hnodup
    rcases List.nodup_cons.1 hnodup with ⟨hnotmem, hnodup'⟩
    cases hname : a.module_name with
    | none =>
      have hrestnil : rest = [] := by
        rcases hr : rest with _ | ⟨b, rest'⟩
        · rfl
        · exfalso
          subst hr
          have hb := hlen b (List.mem_cons_self _ _)
          have ha0 : nameLen a = 0 := by simp [nameLen, hname]
          cases hbname : b.module_name with
          | none =>
            apply hnotmem
            rw [hname]
            have : b.module_name ∈ (b :: rest').map (·.module_name) :=
              List.mem_map_of_mem _ (List.mem_cons_self _ _)
            rw [hbname] at this
            exact this
          | some m =>
            have hblen : nameLen b = m.length := by simp [nameLen, hbname]
            have hm0 : m = [] := List.eq_nil_of_length_eq_zero (by omega)
            exact hne b (List.mem_cons_of_mem _ (List.mem_cons_self _ _))
              (by rw [hbname, hm0])
      subst hrestnil
      right
      refine ⟨[], a.level_filter, ?_, by intro mf hmf; cases hmf⟩
      have ha : a = ⟨none, a.level_filter⟩ := by
        cases a
        simp_all
      rw [List.nil_append, ← ha]
    | some n =>
      rcases ih hsort' hnodup' (fun mf hmf => hne mf (List.mem_cons_of_mem _ hmf))
        with hall | ⟨N, d, heq, hN⟩
      · left
        intro mf hmf
        rcases List.mem_cons.1 hmf with rfl | hmf'
        · rw [hname]
          simp
        · exact hall mf hmf'
      · right
        refine ⟨a :: N, d, by rw [heq, List.cons_append], ?_⟩
        intro mf hmf
        rcases List.mem_cons.1 hmf with rfl | hmf'
        · rw [hname]
          simp
        · exact hN mf hmf'

theorem to_toml_global_none {s : LogSpecification}
    (h : ∀ mf ∈ s.module_filters, mf.module_name ≠ none) :
    (to_toml s).global_level = none := by
  show (match s.module_filters.getLast? with
        | some mf =>
          match mf.module_name with
          | none => some (levelName mf.level_filter)
          | some _ => none
        | none => none) = none
  cases hlast : s.module_filters.getLast? with
  | none => rfl
  | some mf =>
    cases hname : mf.module_name with
    | none => exact absurd hname (h mf (List.mem_of_getLast?_eq_some hlast))
    | some n => simp only [hname]

theorem from_toml_ok {gl : Option Str} {base : List ModuleFilter}
    (hbase : (match gl with
              | some t =>
                match parseLevelFilter t with
                | some lf => Except.ok [(⟨none, lf⟩ : ModuleFilter)]
                | none => Except.error (Diag.badLevel t)
              | none => Except.ok ([] : List ModuleFilter)) = .ok base)
    {mods : List (Str × Str)} {fs : List ModuleFilter}
    (hmods : parseModules mods = .ok fs) (gp : Option Str) :
    from_toml ⟨gl, gp, mods⟩ = .ok ⟨levelSort (base ++ fs), gp⟩ := by
  unfold from_toml
  rw [show (LogSpecFileFormat.mk gl gp mods).global_level = gl from rfl] at *
  rw [hbase]
  rw [show (LogSpecFileFormat.mk gl gp mods).modules = mods from rfl, hmods]

theorem parseModules_btree_toPair {N : List ModuleFilter}
    (hnodup : (N.map (·.module_name)).Nodup)
    (hnamed : ∀ mf ∈ N, mf.module_name ≠ none) :
    ∃ fs', parseModules (btreeOfList (N.filterMap toPair)) = .ok fs' ∧
      List.Perm fs' N := by
  have hkeys : ((N.filterMap toPair).map Prod.fst).Nodup := by
    rw [keys_filterMap_toPair]
    exact nodup_filterMap_module_name hnodup
  have hbp := btreeOfList_perm _ hkeys
  have hsome : ∀ kv ∈ btreeOfList (N.filterMap toPair), (decodePair kv).isSome := by
    intro kv hkv
    exact decodePair_isSome_of_mem_toPair (hbp.mem_iff.1 hkv)
  refine ⟨_, parseModules_eq_filterMap _ hsome, ?_⟩
  have hperm := hbp.filterMap decodePair
  rw [filterMap_decodePair_toPair N hnamed] at hperm
  exact hperm

/-- C2 amended: rendering a well-formed specification to the persisted toml
form and re-parsing yields the same rule set (the same module names and
thresholds, as a permutation of the rule list), but never an equivalent text
filter: `to_toml` writes the pattern line commented out, so the re-parsed
specification always has no text filter. -/
theorem c2_toml_roundtrip_rules (s : LogSpecification) (h : s.wellFormed) :
    ∃ s', tomlRound s = .ok s' ∧
      List.Perm s'.module_filters s.module_filters ∧ s'.textfilter = none := by
  rcases h with ⟨hsort, hnodup, hne⟩
  have htr : tomlRound s =
      from_toml ⟨(to_toml s).global_level, none, btreeOfList ((to_toml s).modules)⟩ := rfl
  have hmodsdef : (to_toml s).modules = s.module_filters.filterMap toPair := rfl
  rcases wf_decomp s.module_filters hsort hnodup hne with hall | ⟨N, d, heq, hN⟩
  · have hg : (to_toml s).global_level = none := to_toml_global_none hall
    rcases parseModules_btree_toPair hnodup hall with ⟨fs', hpm, hperm⟩
    refine ⟨⟨levelSort fs', none⟩, ?_, ?_, rfl⟩
    · rw [htr, hg, hmodsdef]
      exact @from_toml_ok none [] rfl _ _ hpm none
    · exact (levelSort_perm fs').trans hperm
  · have hg : (to_toml s).global_level = some (levelName d) := by
      show (match s.module_filters.getLast? with
            | some mf =>
              match mf.module_name with
              | none => some (levelName mf.level_filter)
              | some _ => none
            | none => none) = _
      rw [heq, List.getLast?_concat]
    have hmodseq : (to_toml s).modules = N.filterMap toPair := by
      rw [hmodsdef, heq, List.filterMap_append]
      rw [show List.filterMap toPair [(⟨none, d⟩ : ModuleFilter)] = [] from rfl]
      rw [List.append_nil]
    have hnodupN : (N.map (·.module_name)).Nodup := by
      rw [heq, List.map_append] at hnodup
      exact hnodup.of_append_left
    rcases parseModules_btree_toPair hnodupN hN with ⟨fs', hpm, hperm⟩
    refine ⟨⟨levelSort ([⟨none, d⟩] ++ fs'), none⟩, ?_, ?_, rfl⟩
    · rw [htr, hg, hmodseq]
      exact @from_toml_ok (some (levelName d)) [⟨none, d⟩]
        (by simp only [parseLevelFilter_levelName]) _ _ hpm none
    · rw [heq]
      exact (levelSort_perm _).trans
        ((hperm.cons _).trans (List.perm_append_singleton _ _).symm)

/-- Witness for C2 amended at a concrete well-formed specification with one
named rule and a default rule. -/
theorem c2_toml_roundtrip_rules_witness :
    (LogSpecification.mk [⟨some ['a', 'b'], .debug⟩, ⟨none, .info⟩] none).wellFormed ∧
    ∃ s', tomlRound (LogSpecification.mk [⟨some ['a', 'b'], .debug⟩, ⟨none, .info⟩] none) =
        .ok s' ∧
      List.Perm s'.module_filters [⟨some ['a', 'b'], .debug⟩, ⟨none, .info⟩] ∧
      s'.textfilter = none := by
  have hwf : (LogSpecification.mk [⟨some ['a', 'b'], .debug⟩, ⟨none, .info⟩] none).wellFormed := by
    refine ⟨?_, ?_, ?_⟩
    · simp [nameLen]
    · simp
    · intro mf hmf
      rcases List.mem_cons.1 hmf with rfl | hmf'
      · simp
      · rcases List.mem_cons.1 hmf' with rfl | h'
        · simp
        · simp at h'
  exact ⟨hwf, c2_toml_roundtrip_rules _ hwf⟩

/-- C2 counterexample: a specification carrying the text filter `"abc"`
round-trips to a specification with no text filter at all — `to_toml` writes
the `global_pattern` line commented out — refuting the "equivalent text
filter whenever the original had one" part of the claim. -/
theorem c2_counterexample :
    (LogSpecification.mk [⟨some ("mod1".toList), .info⟩]
        (some ("abc".toList))).textfilter = some ("abc".toList) ∧
    tomlRound (LogSpecification.mk [⟨some ("mod1".toList), .info⟩]
        (some ("abc".toList))) =
      .ok (LogSpecification.mk [⟨some ("mod1".toList), .info⟩] none) := by
  exact ⟨rfl, rfl⟩

end FlexiLogger
